import Mathlib

/-!
Verification of the mudtcp repository (a minimal non-blocking TCP line
server) against its natural-language specification.

The embedding models:
- src/src/codec/linecodec.rs : LineCodec::read / LineCodec::write.
  A received line is modelled as the list of Unicode scalar values of the
  String produced by read_line (valid UTF-8 input); bytes_read is the UTF-8
  byte length of those scalars.  The scan loop of LineCodec::read indexes
  the buffer by characters (buf.chars().nth(index)) while bounding index by
  bytes_read, and the .unwrap() panics when nth returns no character; the
  panic is modelled as the value ReadResult.panicked (scan result none).
- src/src/lib.rs : Server (poll = prune, send_messages, poll_clients,
  poll_listener), next_id, kick, enqueue.  The server is generic over the
  Codec trait, so a client codec is modelled by its id and open flag, and
  the outcomes of the trait calls read / write on the underlying sockets
  are supplied by oracle functions.  The panic of next_id on ClientId
  (usize) exhaustion is modelled as the value none.
-/

namespace Mudtcp

/-- The u8 intermediate-byte test of the scan loop of LineCodec::read:
(0x20..=0x2f).contains(&cb) || (0x30..=0x3f).contains(&cb). -/
def inEscRange (cb : Nat) : Bool :=
  (0x20 ≤ cb && cb ≤ 0x2f) || (0x30 ≤ cb && cb ≤ 0x3f)

/-- Rust char::is_ascii_control on a Unicode scalar value: U+0000..U+001F or
U+007F. -/
def isAsciiControl (c : Nat) : Bool :=
  c < 0x20 || c == 0x7f

/-- Rust char::is_whitespace on a Unicode scalar value: the White_Space
property (used by str::trim in LineCodec::read). -/
def isWhitespace (c : Nat) : Bool :=
  (0x09 ≤ c && c ≤ 0x0d) || c == 0x20 || c == 0x85 || c == 0xa0 ||
  c == 0x1680 || (0x2000 ≤ c && c ≤ 0x200a) || c == 0x2028 || c == 0x2029 ||
  c == 0x202f || c == 0x205f || c == 0x3000

/-- Number of UTF-8 bytes of one Unicode scalar value. -/
def utf8CharLen (c : Nat) : Nat :=
  if c < 0x80 then 1 else if c < 0x800 then 2 else if c < 0x10000 then 3 else 4

/-- UTF-8 byte length of a character list; for the line appended by
read_line into the empty String this is the bytes_read return value. -/
def bytesLen (l : List Nat) : Nat :=
  (l.map utf8CharLen).sum

/-- The while loop of LineCodec::read (linecodec.rs lines 41 to 68), in
suffix form: rem is the list of characters of buf from position index on,
and left = bytes_read - index counts the remaining loop iterations (the
loop condition index < bytes_read is left > 0).  Stepping index by one maps
to taking the tail of rem and decrementing left; the ESC branch steps index
by two (sequence = true; index += 1 inside the branch and index += 1 at the
bottom of the loop).  buf.chars().nth(index) is the head of rem; when rem
is exhausted while left > 0 the .unwrap() panics, modelled as none.
cb = c as u8 is the truncation c % 256. -/
def scanGo : List Nat → Nat → Bool → List Nat → Option (List Nat)
  | _, 0, _, acc => some acc
  | [], _ + 1, _, _ => none
  | c :: rest, left + 1, true, acc =>
      if inEscRange (c % 256) then scanGo rest left true acc
      else scanGo rest left false acc
  | c :: rest, left + 1, false, acc =>
      if isAsciiControl c then
        if c == 0x1b then
          match left, rest with
          | 0, _ => some acc
          | l + 1, [] => if l == 0 then some acc else none
          | l + 1, _ :: rest2 => scanGo rest2 l true acc
        else scanGo rest left false acc
      else scanGo rest left false (acc ++ [c])

/-- str::trim of Rust: drop White_Space characters from both ends. -/
def trimLine (l : List Nat) : List Nat :=
  ((l.dropWhile (fun c => isWhitespace c)).reverse.dropWhile
    (fun c => isWhitespace c)).reverse

/-- Possible outcomes of LineCodec::read on one received line.  ok, wouldBlock
(io::ErrorKind::WouldBlock), unexpectedEof (io::ErrorKind::UnexpectedEof on a
zero-byte read) and notConnected (codec closed) are the outcomes of the
source; panicked models the .unwrap() panic of the scan loop. -/
inductive ReadResult where
  | ok (msg : List Nat)
  | wouldBlock
  | unexpectedEof
  | notConnected
  | panicked
deriving DecidableEq

namespace LineCodec

/-- LineCodec::read (linecodec.rs lines 33 to 79) applied to one line already
received from the BufReader: openFlag is the open field of the codec; line is
the character content appended to buf by read_line (so bytesLen line is the
bytes_read return value, and read_line returning 0 bytes is line = []).  The
error passthrough branch for a failing read_line itself is outside this model;
every claim quantifies over received lines. -/
def read (openFlag : Bool) (line : List Nat) : ReadResult :=
  if !openFlag then .notConnected
  else if 0 < bytesLen line then
    match scanGo line (bytesLen line) false [] with
    | none => .panicked
    | some stripped =>
      let t := trimLine stripped
      if t = [] then .wouldBlock else .ok t
  else .unexpectedEof

/-- LineCodec::write (linecodec.rs lines 81 to 88): fails with NotConnected
when closed, otherwise puts the message bytes followed by one line feed on
the wire. -/
def write (openFlag : Bool) (msg : List Nat) : Option (List Nat) :=
  if !openFlag then none else some (msg ++ [0x0a])

end LineCodec

/-- Modelled from the spec (and from claim C1), for comparison with the
source scan: on ESC enter sequence mode; swallow subsequent bytes in the
ranges 0x20 to 0x2F and 0x30 to 0x3F; the first byte outside both ranges
ends the sequence, is itself dropped, and ordinary scanning resumes at the
byte after it; ordinary control bytes are dropped; other bytes are kept. -/
def specStrip : List Nat → Bool → List Nat
  | [], _ => []
  | c :: rest, false =>
      if c == 0x1b then specStrip rest true
      else if isAsciiControl c then specStrip rest false
      else c :: specStrip rest false
  | c :: rest, true =>
      if inEscRange (c % 256) then specStrip rest true
      else specStrip rest false

/-- ClientId is usize; the maximum representable value on the 64-bit
targets the crate builds for. -/
def usizeMax : Nat := 2 ^ 64 - 1

/-- Server::next_id (lib.rs lines 170 to 177): panic (modelled none) when
last_id holds ClientId::MAX, otherwise increment last_id and return it (the
returned id equals the new last_id value). -/
def nextId (last : Nat) : Option Nat :=
  if last = usizeMax then none else some (last + 1)

/-- One client codec as the trait-generic Server sees it: the id bound at
construction and the open flag toggled by shutdown. -/
structure Client where
  id : Nat
  isOpen : Bool
deriving DecidableEq

/-- The Event enum of lib.rs (error payloads omitted: the server code only
routes them). -/
inductive Event where
  | Join (id : Nat)
  | Leave (id : Nat)
  | Receive (id : Nat) (msg : List Nat)
  | Send (id : Nat)
  | ClientError (id : Nat)
  | ServerError
deriving DecidableEq

/-- Outcome of one codec.read() call as Server::poll_clients matches it:
Ok(data), WouldBlock, UnexpectedEof, or any other error. -/
inductive ReadOutcome where
  | ok (msg : List Nat)
  | wouldBlock
  | eof
  | err
deriving DecidableEq

/-- One pending item of the listener.incoming() iterator in
Server::poll_listener: a listener-level stream error (breaks the loop), a
try_accept failure before id allocation (set_nonblocking), a codec
construction failure after id allocation, or a successful accept. -/
inductive Pending where
  | listenerErr
  | sockErr
  | codecErr
  | good
deriving DecidableEq

/-- The Server struct of lib.rs: the client collection, the events buffer,
the outbound message queue and the id counter (the listener socket itself
is modelled by the incoming oracle of poll). -/
structure Server where
  codecs : List Client
  events : List Event
  message_queue : List (Nat × List Nat)
  last_id : Nat
deriving DecidableEq

/-- Server::new (lib.rs lines 56 to 73) on a successful bind: empty
collections and last_id zero. -/
def initServer : Server :=
  { codecs := [], events := [], message_queue := [], last_id := 0 }

/-- Effect of codec.shutdown() through the find of Server::send_messages and
Server::kick: close the first codec of the collection carrying the id. -/
def closeFirst : List Client → Nat → List Client
  | [], _ => []
  | c :: cs, i =>
      if c.id = i then { c with isOpen := false } :: cs else c :: closeFirst cs i

/-- Server::send_messages (lib.rs lines 147 to 168): drain the queue in
order; for each (id, msg) find the first codec with that id; missing id or
closed codec is skipped silently; otherwise write (outcome given by the
writeOk oracle), emitting Send on success and shutting the codec down and
emitting ClientError on failure. -/
def sendMessages (codecs : List Client) (queue : List (Nat × List Nat))
    (writeOk : Nat → List Nat → Bool) : List Client × List Event :=
  match queue with
  | [] => (codecs, [])
  | (i, m) :: rest =>
    match codecs.find? (fun c => c.id == i) with
    | none => sendMessages codecs rest writeOk
    | some c =>
      if !c.isOpen then sendMessages codecs rest writeOk
      else if writeOk i m then
        let p := sendMessages codecs rest writeOk
        (p.1, .Send i :: p.2)
      else
        let p := sendMessages (closeFirst codecs i) rest writeOk
        (p.1, .ClientError i :: p.2)

/-- Server::poll_clients (lib.rs lines 116 to 137): one codec.read() per
codec, in collection order; WouldBlock is skipped, UnexpectedEof shuts the
codec down and emits Leave, a message emits Receive, any other error shuts
the codec down and emits ClientError.  The read outcome of the codec with a
given id is supplied by the reads oracle. -/
def pollClients (codecs : List Client) (reads : Nat → ReadOutcome) :
    List Client × List Event :=
  match codecs with
  | [] => ([], [])
  | c :: cs =>
    let p := pollClients cs reads
    match reads c.id with
    | .wouldBlock => (c :: p.1, p.2)
    | .eof => ({ c with isOpen := false } :: p.1, .Leave c.id :: p.2)
    | .ok m => (c :: p.1, .Receive c.id m :: p.2)
    | .err => ({ c with isOpen := false } :: p.1, .ClientError c.id :: p.2)

/-- Server::poll_listener (lib.rs lines 85 to 107) with Server::try_accept
(lines 109 to 114): drain pending connections until WouldBlock (the end of
the incoming list); a listener-level error emits ServerError and breaks; a
try_accept failure emits ServerError (allocating an id first when the
failure is codec construction); a success allocates an id, emits Join and
adds the new codec.  Returns the new last_id, the accepted codecs and the
events; none models the next_id panic. -/
def pollListener (last : Nat) : List Pending →
    Option (Nat × List Client × List Event)
  | [] => some (last, [], [])
  | .listenerErr :: _ => some (last, [], [.ServerError])
  | .sockErr :: rest =>
      (pollListener last rest).map (fun r => (r.1, r.2.1, .ServerError :: r.2.2))
  | .codecErr :: rest =>
      match nextId last with
      | none => none
      | some l =>
        (pollListener l rest).map (fun r => (r.1, r.2.1, .ServerError :: r.2.2))
  | .good :: rest =>
      match nextId last with
      | none => none
      | some l =>
        (pollListener l rest).map
          (fun r => (r.1, ⟨l, true⟩ :: r.2.1, .Join l :: r.2.2))

/-- Server::poll (lib.rs lines 75 to 83): prune closed codecs, then
send_messages, then poll_clients, then poll_listener, then drain the whole
events buffer as the returned batch.  none models the next_id panic inside
try_accept. -/
def Server.poll (s : Server) (reads : Nat → ReadOutcome)
    (writeOk : Nat → List Nat → Bool) (incoming : List Pending) :
    Option (Server × List Event) :=
  let cs0 := s.codecs.filter (fun c => c.isOpen)
  let p1 := sendMessages cs0 s.message_queue writeOk
  let p2 := pollClients p1.1 reads
  match pollListener s.last_id incoming with
  | none => none
  | some r =>
    some ({ codecs := p2.1 ++ r.2.1, events := [], message_queue := [],
            last_id := r.1 },
          s.events ++ p1.2 ++ p2.2 ++ r.2.2)

/-- Server::enqueue (lib.rs lines 139 to 141). -/
def Server.enqueue (s : Server) (msg : Nat × List Nat) : Server :=
  { s with message_queue := s.message_queue ++ [msg] }

/-- Result of Server::kick: Ok(()) or Err(ServerError::IdNotFound). -/
inductive KickResult where
  | ok
  | idNotFound
deriving DecidableEq

/-- Server::kick (lib.rs lines 179 to 186): shutdown the first codec with
the id and return Ok, or return the IdNotFound error. -/
def Server.kick (s : Server) (i : Nat) : Server × KickResult :=
  if s.codecs.any (fun c => c.id == i) then
    ({ s with codecs := closeFirst s.codecs i }, .ok)
  else (s, .idNotFound)

/-- One operation of an application driving the Server across its lifetime. -/
inductive Op where
  | poll (reads : Nat → ReadOutcome) (writeOk : Nat → List Nat → Bool)
      (incoming : List Pending)
  | enqueue (msg : Nat × List Nat)
  | kick (i : Nat)

/-- Run a list of operations against a server, collecting every event batch
returned by the polls; none models the next_id panic. -/
def runOps (s : Server) : List Op → Option (Server × List Event)
  | [] => some (s, [])
  | .poll r w inc :: rest =>
    match s.poll r w inc with
    | none => none
    | some p =>
      (runOps p.1 rest).map (fun q => (q.1, p.2 ++ q.2))
  | .enqueue m :: rest => runOps (s.enqueue m) rest
  | .kick i :: rest => runOps (s.kick i).1 rest

/-- Ids of the Join events of a batch, in batch order. -/
def joinIds (evs : List Event) : List Nat :=
  evs.filterMap (fun e => match e with | .Join i => some i | _ => none)

/-- Oracle: every client read reports no pending data. -/
def readsNone : Nat → ReadOutcome := fun _ => .wouldBlock

/-- Oracle: every codec write succeeds. -/
def writeAllOk : Nat → List Nat → Bool := fun _ _ => true

/-- The characters of "hi". -/
def hiMsg : List Nat := [0x68, 0x69]

/-- Oracle of the two-client scenario of claim C9: client 1 has sent the
complete line "hi", nothing else is pending. -/
def readsC9 : Nat → ReadOutcome :=
  fun i => if i == 1 then .ok hiMsg else .wouldBlock

/-- Server state after the two clients of the C9 scenario joined. -/
def serverTwoClients : Server :=
  { codecs := [⟨1, true⟩, ⟨2, true⟩], events := [], message_queue := [],
    last_id := 2 }

/-- Server state with a single connected client (id 1), used by the kick
scenario of claim C8. -/
def serverOneClient : Server :=
  { codecs := [⟨1, true⟩], events := [], message_queue := [], last_id := 1 }

/-! Lemmas about the scan loop of LineCodec::read. -/

lemma one_le_utf8CharLen (c : Nat) : 1 ≤ utf8CharLen c := by
  unfold utf8CharLen
  split
  · omega
  · split
    · omega
    · split <;> omega

lemma bytesLen_cons (a : Nat) (t : List Nat) :
    bytesLen (a :: t) = utf8CharLen a + bytesLen t := by
  simp [bytesLen]

lemma length_le_bytesLen (l : List Nat) : l.length ≤ bytesLen l := by
  induction l with
  | nil => simp [bytesLen]
  | cons a t ih =>
    have := one_le_utf8CharLen a
    rw [bytesLen_cons]
    simp only [List.length_cons]
    omega

lemma bytesLen_ascii (l : List Nat) (h : ∀ c ∈ l, c < 0x80) :
    bytesLen l = l.length := by
  induction l with
  | nil => simp [bytesLen]
  | cons a t ih =>
    have ha : utf8CharLen a = 1 := by
      unfold utf8CharLen
      rw [if_pos (h a (by simp))]
    rw [bytesLen_cons, ha, ih (fun c hc => h c (by simp [hc]))]
    simp only [List.length_cons]
    omega

lemma length_lt_bytesLen (l : List Nat) (h : ∃ c ∈ l, 2 ≤ utf8CharLen c) :
    l.length < bytesLen l := by
  induction l with
  | nil => simp at h
  | cons a t ih =>
    rw [bytesLen_cons]
    simp only [List.length_cons]
    obtain ⟨c, hc, h2⟩ := h
    rcases List.mem_cons.mp hc with rfl | hct
    · have := length_le_bytesLen t
      omega
    · have := ih ⟨c, hct, h2⟩
      have := one_le_utf8CharLen a
      omega

lemma dropWhile_eq_self_of_head (p : Nat → Bool) (l : List Nat)
    (h : ∀ c, l.head? = some c → p c = false) : l.dropWhile p = l := by
  cases l with
  | nil => rfl
  | cons a t => simp [List.dropWhile_cons, h a rfl]

lemma trimLine_eq_self (l : List Nat)
    (h1 : ∀ c, l.head? = some c → isWhitespace c = false)
    (h2 : ∀ c, l.getLast? = some c → isWhitespace c = false) :
    trimLine l = l := by
  unfold trimLine
  rw [dropWhile_eq_self_of_head _ l h1]
  rw [dropWhile_eq_self_of_head _ l.reverse
    (fun c hc => h2 c (by rwa [List.head?_reverse] at hc))]
  simp

lemma scanGo_seq_swallow (mids : List Nat) :
    ∀ (rest acc : List Nat) (L : Nat),
    (∀ m ∈ mids, inEscRange (m % 256) = true) → mids.length < L →
    scanGo (mids ++ rest) L true acc = scanGo rest (L - mids.length) true acc := by
  induction mids with
  | nil => intro rest acc L _ _; simp
  | cons m ms ih =>
    intro rest acc L hm hL
    cases L with
    | zero => simp at hL
    | succ left =>
      have hmr : inEscRange (m % 256) = true := hm m (by simp)
      rw [List.cons_append, scanGo.eq_def]
      simp only [hmr, if_true]
      rw [ih rest acc left (fun x hx => hm x (by simp [hx]))
        (by simp at hL; omega)]
      congr 1
      simp only [List.length_cons]
      omega

lemma scanGo_plain (s : List Nat) :
    ∀ (rest acc : List Nat) (L : Nat),
    (∀ c ∈ s, isAsciiControl c = false) → s.length ≤ L →
    scanGo (s ++ rest) L false acc =
      scanGo rest (L - s.length) false (acc ++ s) := by
  induction s with
  | nil => intro rest acc L _ _; simp
  | cons a t ih =>
    intro rest acc L hs hL
    cases L with
    | zero => simp at hL
    | succ left =>
      have ha : isAsciiControl a = false := hs a (by simp)
      rw [List.cons_append, scanGo.eq_def]
      simp only [ha, Bool.false_eq_true, if_false]
      rw [ih rest (acc ++ [a]) left (fun c hc => hs c (by simp [hc]))
        (by simp at hL; omega)]
      rw [List.append_assoc]
      congr 1
      simp only [List.length_cons]
      omega

lemma scanGo_nil_succ (L : Nat) (seq : Bool) (acc : List Nat) :
    scanGo [] (L + 1) seq acc = none := rfl

lemma scanGo_step_inRange {c : Nat} (rest acc : List Nat) (L : Nat)
    (hc : inEscRange (c % 256) = true) :
    scanGo (c :: rest) (L + 1) true acc = scanGo rest L true acc := by
  rw [scanGo.eq_def]
  simp only [hc, if_true]

lemma scanGo_step_outRange {c : Nat} (rest acc : List Nat) (L : Nat)
    (hc : inEscRange (c % 256) = false) :
    scanGo (c :: rest) (L + 1) true acc = scanGo rest L false acc := by
  rw [scanGo.eq_def]
  simp only [hc, Bool.false_eq_true, if_false]

lemma scanGo_step_plain {c : Nat} (rest acc : List Nat) (L : Nat)
    (hc : isAsciiControl c = false) :
    scanGo (c :: rest) (L + 1) false acc = scanGo rest L false (acc ++ [c]) := by
  rw [scanGo.eq_def]
  simp only [hc, Bool.false_eq_true, if_false]

lemma scanGo_step_ctrl {c : Nat} (rest acc : List Nat) (L : Nat)
    (hc : isAsciiControl c = true) (h27 : (c == 0x1b) = false) :
    scanGo (c :: rest) (L + 1) false acc = scanGo rest L false acc := by
  rw [scanGo.eq_def]
  simp only [hc, h27, if_true, Bool.false_eq_true, if_false]

lemma scanGo_step_esc_zero (rest acc : List Nat) :
    scanGo (0x1b :: rest) 1 false acc = some acc := rfl

lemma scanGo_step_esc_nil (acc : List Nat) (l : Nat) :
    scanGo [0x1b] (l + 2) false acc = if l == 0 then some acc else none := rfl

lemma scanGo_step_esc (d : Nat) (rest2 acc : List Nat) (l : Nat) :
    scanGo (0x1b :: d :: rest2) (l + 2) false acc = scanGo rest2 l true acc :=
  rfl

lemma scanGo_isSome (L : Nat) :
    ∀ (rem : List Nat) (seq : Bool) (acc : List Nat),
    L ≤ rem.length → (scanGo rem L seq acc).isSome := by
  induction L using Nat.strong_induction_on with
  | _ L ih =>
    intro rem seq acc h
    cases L with
    | zero => rw [scanGo.eq_def]; cases rem <;> simp
    | succ n =>
      cases rem with
      | nil => simp at h
      | cons c rest =>
        simp only [List.length_cons] at h
        cases seq with
        | true =>
          cases hesc : inEscRange (c % 256) with
          | true =>
            rw [scanGo_step_inRange rest acc n hesc]
            exact ih n (by omega) rest true acc (by omega)
          | false =>
            rw [scanGo_step_outRange rest acc n hesc]
            exact ih n (by omega) rest false acc (by omega)
        | false =>
          cases hctl : isAsciiControl c with
          | false =>
            rw [scanGo_step_plain rest acc n hctl]
            exact ih n (by omega) rest false (acc ++ [c]) (by omega)
          | true =>
            cases h27 : c == 0x1b with
            | false =>
              rw [scanGo_step_ctrl rest acc n hctl h27]
              exact ih n (by omega) rest false acc (by omega)
            | true =>
              have hc : c = 0x1b := by simpa using h27
              subst hc
              cases n with
              | zero => rw [scanGo_step_esc_zero]; rfl
              | succ l =>
                cases rest with
                | nil => simp only [List.length_nil] at h; omega
                | cons d rest2 =>
                  rw [scanGo_step_esc d rest2 acc l]
                  simp only [List.length_cons] at h
                  exact ih l (by omega) rest2 true acc (by omega)

lemma scanGo_panics (L : Nat) :
    ∀ (rem : List Nat) (seq : Bool) (acc : List Nat),
    rem.length < L → rem.getLast? ≠ some 0x1b →
    scanGo rem L seq acc = none := by
  induction L using Nat.strong_induction_on with
  | _ L ih =>
    intro rem seq acc h hlast
    cases L with
    | zero => omega
    | succ n =>
      cases rem with
      | nil => exact scanGo_nil_succ n seq acc
      | cons c rest =>
        simp only [List.length_cons] at h
        have hrest : rest.getLast? ≠ some 0x1b := by
          cases rest with
          | nil => simp
          | cons d r2 => rwa [List.getLast?_cons_cons] at hlast
        cases seq with
        | true =>
          cases hesc : inEscRange (c % 256) with
          | true =>
            rw [scanGo_step_inRange rest acc n hesc]
            exact ih n (by omega) rest true acc (by omega) hrest
          | false =>
            rw [scanGo_step_outRange rest acc n hesc]
            exact ih n (by omega) rest false acc (by omega) hrest
        | false =>
          cases hctl : isAsciiControl c with
          | false =>
            rw [scanGo_step_plain rest acc n hctl]
            exact ih n (by omega) rest false (acc ++ [c]) (by omega) hrest
          | true =>
            cases h27 : c == 0x1b with
            | false =>
              rw [scanGo_step_ctrl rest acc n hctl h27]
              exact ih n (by omega) rest false acc (by omega) hrest
            | true =>
              have hc : c = 0x1b := by simpa using h27
              subst hc
              cases rest with
              | nil => exact absurd (by simp) hlast
              | cons d rest2 =>
                simp only [List.length_cons] at h
                cases n with
                | zero => omega
                | succ l =>
                  rw [scanGo_step_esc d rest2 acc l]
                  have h2 : rest2.getLast? ≠ some 0x1b := by
                    cases rest2 with
                    | nil => simp
                    | cons e r3 => rwa [List.getLast?_cons_cons] at hrest
                  exact ih l (by omega) rest2 true acc (by omega) h2

/-- Claim C1, counterexample: on the received line "a ESC X b LF" the claim
as stated (formalised by specStrip) predicts the decoded message "ab", but
LineCodec::read yields "a": the byte X right after ESC is swallowed
unconditionally instead of terminating the sequence, so the terminator role
falls on b, which is dropped. -/
theorem c1_counterexample :
    LineCodec.read true [0x61, 0x1b, 0x58, 0x62, 0x0a] = .ok [0x61] ∧
    trimLine (specStrip [0x61, 0x1b, 0x58, 0x62, 0x0a] false) = [0x61, 0x62] ∧
    ReadResult.ok [0x61] ≠ ReadResult.ok [0x61, 0x62] := by decide

/-- Claim C1 (amended): once ESC is seen in ordinary mode, the byte
immediately after ESC is skipped without being classified; thereafter bytes
whose low 8 bits lie in 0x20 to 0x2F or 0x30 to 0x3F are swallowed, the
first later byte outside both ranges ends the escape sequence and is itself
dropped, and ordinary scanning resumes at the byte after it with nothing of
the sequence appended. -/
theorem c1_esc_skip_and_terminator (x t : Nat) (mids rest acc : List Nat)
    (L : Nat)
    (hm : ∀ m ∈ mids, inEscRange (m % 256) = true)
    (ht : inEscRange (t % 256) = false)
    (hL : mids.length + 3 ≤ L) :
    scanGo (0x1b :: x :: (mids ++ t :: rest)) L false acc =
      scanGo rest (L - (mids.length + 3)) false acc := by
  obtain ⟨l, rfl⟩ : ∃ l, L = l + 2 := ⟨L - 2, by omega⟩
  rw [scanGo_step_esc x (mids ++ t :: rest) acc l]
  rw [scanGo_seq_swallow mids (t :: rest) acc l hm (by omega)]
  obtain ⟨k, hk⟩ : ∃ k, l - mids.length = k + 1 := ⟨l - mids.length - 1, by omega⟩
  rw [hk, scanGo_step_outRange rest acc k ht]
  congr 1
  omega

/-- Witness for claim C1: the concrete run "ESC X 1 A b" with intermediate
byte 1 and terminator A consumes the whole escape sequence and resumes
ordinary scanning at b. -/
theorem c1_esc_skip_witness :
    scanGo [0x1b, 0x58, 0x31, 0x41, 0x62] 6 false [] =
      scanGo [0x62] 2 false [] :=
  c1_esc_skip_and_terminator 0x58 0x41 [0x31] [0x62] [] 6 (by decide)
    (by decide) (by decide)

/-- Claim C2: the line "  fo^X^Ao_b ESC [1;5A ar  " (with or without its
line feed) decodes to exactly "foo_bar". -/
theorem c2_example_decodes :
    LineCodec.read true
      [0x20, 0x20, 0x66, 0x6f, 0x18, 0x01, 0x6f, 0x5f, 0x62,
       0x1b, 0x5b, 0x31, 0x3b, 0x35, 0x41, 0x61, 0x72, 0x20, 0x20] =
      .ok [0x66, 0x6f, 0x6f, 0x5f, 0x62, 0x61, 0x72] ∧
    LineCodec.read true
      [0x20, 0x20, 0x66, 0x6f, 0x18, 0x01, 0x6f, 0x5f, 0x62,
       0x1b, 0x5b, 0x31, 0x3b, 0x35, 0x41, 0x61, 0x72, 0x20, 0x20, 0x0a] =
      .ok [0x66, 0x6f, 0x6f, 0x5f, 0x62, 0x61, 0x72] := by decide

/-- Claim C3, counterexample: the single-character string "é" (U+00E9, a
two-byte UTF-8 character, not a control byte, not whitespace) encodes to
its bytes plus a line feed, but decoding that line panics in the scan loop
instead of returning the string. -/
theorem c3_counterexample :
    LineCodec.write true [0xe9] = some [0xe9, 0x0a] ∧
    LineCodec.read true [0xe9, 0x0a] = .panicked ∧
    ReadResult.panicked ≠ .ok [0xe9] := by decide

/-- Claim C3 (amended): for every non-empty ASCII string with no control
bytes and no leading or trailing whitespace, writing it with
LineCodec::write and decoding the wire bytes with LineCodec::read yields
the identical string. -/
theorem c3_ascii_roundtrip (s wire : List Nat)
    (hne : s ≠ [])
    (hascii : ∀ c ∈ s, c < 0x80)
    (hctl : ∀ c ∈ s, isAsciiControl c = false)
    (hhead : ∀ c, s.head? = some c → isWhitespace c = false)
    (hlast : ∀ c, s.getLast? = some c → isWhitespace c = false)
    (hw : LineCodec.write true s = some wire) :
    LineCodec.read true wire = .ok s := by
  have hwire : wire = s ++ [0x0a] := by
    simpa [LineCodec.write] using hw.symm
  subst hwire
  have hasciiw : ∀ c ∈ s ++ [0x0a], c < 0x80 := by
    intro c hc
    rcases List.mem_append.mp hc with h | h
    · exact hascii c h
    · simp at h
      omega
  have hb : bytesLen (s ++ [0x0a]) = s.length + 1 := by
    rw [bytesLen_ascii _ hasciiw]
    simp
  have hscan : scanGo (s ++ [0x0a]) (bytesLen (s ++ [0x0a])) false [] =
      some s := by
    rw [hb, scanGo_plain s [0x0a] [] (s.length + 1) hctl (by omega)]
    have h1 : s.length + 1 - s.length = 1 := by omega
    rw [h1, List.nil_append]
    rw [scanGo_step_ctrl ([] : List Nat) s 0 (by decide) (by decide)]
    rfl
  have hpos : 0 < bytesLen (s ++ [0x0a]) := by
    rw [hb]
    omega
  simp only [LineCodec.read, Bool.not_true, Bool.false_eq_true, if_false,
    hpos, if_true, hscan, trimLine_eq_self s hhead hlast]
  rw [if_neg hne]

/-- Witness for claim C3: the string "ok" round-trips through write and
read. -/
theorem c3_ascii_roundtrip_witness :
    LineCodec.read true [0x6f, 0x6b, 0x0a] = .ok [0x6f, 0x6b] :=
  c3_ascii_roundtrip [0x6f, 0x6b] [0x6f, 0x6b, 0x0a] (by decide) (by decide)
    (by decide)
    (fun c hc => by simp at hc; subst hc; decide)
    (fun c hc => by simp at hc; subst hc; decide)
    (by decide)

/-- Claim C4, counterexample: the received line NBSP LF (U+00A0 no-break
space, a whitespace character, then the line feed) consists only of
whitespace and control bytes and its content after stripping and trimming
is empty, yet LineCodec::read panics on it (two-byte character) instead of
returning WouldBlock. -/
theorem c4_counterexample :
    trimLine (specStrip [0xa0, 0x0a] false) = [] ∧
    LineCodec.read true [0xa0, 0x0a] = .panicked ∧
    ReadResult.panicked ≠ .wouldBlock := by decide

/-- Claim C4 (amended): for every received non-empty ASCII line whose
content after control and escape stripping and whitespace trimming is
empty, LineCodec::read returns WouldBlock. -/
theorem c4_blank_line_wouldblock (l : List Nat)
    (hne : l ≠ [])
    (hascii : ∀ c ∈ l, c < 0x80)
    (hblank : trimLine ((scanGo l (bytesLen l) false []).getD []) = []) :
    LineCodec.read true l = .wouldBlock := by
  have hb : bytesLen l = l.length := bytesLen_ascii l hascii
  have hsome : (scanGo l (bytesLen l) false []).isSome := by
    rw [hb]
    exact scanGo_isSome l.length l false [] (le_refl _)
  obtain ⟨out, hout⟩ := Option.isSome_iff_exists.mp hsome
  rw [hout] at hblank
  simp only [Option.getD_some] at hblank
  have hpos : 0 < bytesLen l := by
    rw [hb]
    exact List.length_pos.mpr hne
  simp only [LineCodec.read, Bool.not_true, Bool.false_eq_true, if_false,
    hpos, if_true, hout, hblank]

/-- Witness for claim C4: a line of one space and a line feed decodes to
WouldBlock. -/
theorem c4_blank_line_witness :
    LineCodec.read true [0x20, 0x0a] = .wouldBlock :=
  c4_blank_line_wouldblock [0x20, 0x0a] (by decide) (by decide) (by decide)

/-- Claim C7: next_id panics exactly when last_id holds the maximum
representable ClientId value, and in every other state it succeeds,
returning the incremented counter, which is strictly greater than the old
counter value (hence fresh). -/
theorem c7_next_id_panic_iff_max (last : Nat) :
    (nextId last = none ↔ last = usizeMax) ∧
    (last ≠ usizeMax → nextId last = some (last + 1) ∧ last < last + 1) := by
  constructor
  · unfold nextId
    split
    · simp_all
    · simp_all
  · intro h
    unfold nextId
    rw [if_neg h]
    exact ⟨rfl, by omega⟩

/-- Witness for claim C7: allocation panics at the maximum and succeeds at
the counter value 5. -/
theorem c7_next_id_witness :
    nextId usizeMax = none ∧ nextId 5 = some 6 :=
  ⟨(c7_next_id_panic_iff_max usizeMax).1.mpr rfl,
   ((c7_next_id_panic_iff_max 5).2 (by decide)).1⟩

/-- Claim C10, counterexample: the received line "é ESC" (one two-byte
UTF-8 character, no trailing newline, as read_line returns it at end of
input) contains a multi-byte character, yet LineCodec::read does not panic:
the unconditional skip of the byte after ESC jumps the index past the end
of the buffer. -/
theorem c10_counterexample :
    (∃ c ∈ [0xe9, 0x1b], 2 ≤ utf8CharLen c) ∧
    LineCodec.read true [0xe9, 0x1b] = .ok [0xe9] ∧
    ReadResult.ok [0xe9] ≠ .panicked := by
  exact ⟨⟨0xe9, by decide, by decide⟩, by decide, by decide⟩

/-- Claim C10 (amended): the stripping scan of LineCodec::read panics on
every received line that contains at least one multi-byte UTF-8 character
and whose last character is not ESC (in particular every newline-terminated
multi-byte line), and it never panics on a line of only single-byte (ASCII)
characters. -/
theorem c10_panic_characterization (l : List Nat) :
    ((∃ c ∈ l, 2 ≤ utf8CharLen c) → l.getLast? ≠ some 0x1b →
      LineCodec.read true l = .panicked) ∧
    ((∀ c ∈ l, c < 0x80) → LineCodec.read true l ≠ .panicked) := by
  constructor
  · intro hmb hlast
    have hlt : l.length < bytesLen l := length_lt_bytesLen l hmb
    have hnonnil : l ≠ [] := by
      rintro rfl
      obtain ⟨c, hc, _⟩ := hmb
      simp at hc
    have hpos : 0 < bytesLen l := by
      have := List.length_pos.mpr hnonnil
      omega
    have hnone : scanGo l (bytesLen l) false [] = none :=
      scanGo_panics (bytesLen l) l false [] hlt hlast
    simp only [LineCodec.read, Bool.not_true, Bool.false_eq_true, if_false,
      hpos, if_true, hnone]
  · intro hascii hcontra
    have hb := bytesLen_ascii l hascii
    by_cases hl : l = []
    · subst hl
      simp [LineCodec.read, bytesLen] at hcontra
    · have hpos : 0 < bytesLen l := by
        rw [hb]
        exact List.length_pos.mpr hl
      have hsome : (scanGo l (bytesLen l) false []).isSome := by
        rw [hb]
        exact scanGo_isSome l.length l false [] (le_refl _)
      obtain ⟨out, hout⟩ := Option.isSome_iff_exists.mp hsome
      simp only [LineCodec.read, Bool.not_true, Bool.false_eq_true, if_false,
        hpos, if_true, hout] at hcontra
      revert hcontra
      split <;> simp

/-- Witness for claim C10: a newline-terminated line holding "é" panics,
and the ASCII line "h" does not. -/
theorem c10_panic_witness :
    LineCodec.read true [0xe9, 0x0a] = .panicked ∧
    LineCodec.read true [0x68, 0x0a] ≠ .panicked :=
  ⟨(c10_panic_characterization [0xe9, 0x0a]).1 ⟨0xe9, by decide, by decide⟩
      (by decide),
   (c10_panic_characterization [0x68, 0x0a]).2 (by decide)⟩

/-! Lemmas about the Server operations. -/

lemma nextId_eq_some {last l : Nat} (h : nextId last = some l) :
    l = last + 1 := by
  unfold nextId at h
  split at h
  · exact absurd h (by simp)
  · exact (Option.some.inj h).symm

lemma closeFirst_id_map (cs : List Client) (i : Nat) :
    (closeFirst cs i).map (fun c => c.id) = cs.map (fun c => c.id) := by
  induction cs with
  | nil => rfl
  | cons c cs ih =>
    unfold closeFirst
    split
    · simp
    · simp [ih]

lemma sendMessages_ids (q : List (Nat × List Nat)) :
    ∀ (cs : List Client) (w : Nat → List Nat → Bool),
    ((sendMessages cs q w).1).map (fun c => c.id) = cs.map (fun c => c.id) := by
  induction q with
  | nil => intro cs w; rfl
  | cons e rest ih =>
    intro cs w
    obtain ⟨i, m⟩ := e
    simp only [sendMessages]
    cases hf : cs.find? (fun c => c.id == i) with
    | none => simp only [hf]; exact ih cs w
    | some c =>
      simp only [hf]
      cases hio : c.isOpen with
      | false => simp only [hio, Bool.not_false, if_true]; exact ih cs w
      | true =>
        simp only [hio, Bool.not_true, Bool.false_eq_true, if_false]
        cases hwr : w i m with
        | true => simp only [hwr, if_true]; exact ih cs w
        | false =>
          simp only [hwr, Bool.false_eq_true, if_false]
          rw [ih (closeFirst cs i) w, closeFirst_id_map]

lemma sendMessages_events (q : List (Nat × List Nat)) :
    ∀ (cs : List Client) (w : Nat → List Nat → Bool),
    joinIds (sendMessages cs q w).2 = [] ∧
    (∀ i, Event.Leave i ∉ (sendMessages cs q w).2) ∧
    (∀ i, Event.ClientError i ∈ (sendMessages cs q w).2 →
      i ∈ cs.map (fun c => c.id)) := by
  induction q with
  | nil => intro cs w; simp [sendMessages, joinIds]
  | cons e rest ih =>
    intro cs w
    obtain ⟨i, m⟩ := e
    simp only [sendMessages]
    cases hf : cs.find? (fun c => c.id == i) with
    | none => simp only [hf]; exact ih cs w
    | some c =>
      have hmem : c ∈ cs := List.mem_of_find?_eq_some hf
      have hcid : c.id = i := by simpa using List.find?_some hf
      simp only [hf]
      cases hio : c.isOpen with
      | false => simp only [hio, Bool.not_false, if_true]; exact ih cs w
      | true =>
        simp only [hio, Bool.not_true, Bool.false_eq_true, if_false]
        cases hwr : w i m with
        | true =>
          simp only [hwr, if_true]
          refine ⟨by simpa [joinIds] using (ih cs w).1, ?_, ?_⟩
          · intro j hj
            rcases List.mem_cons.mp hj with h | h
            · exact Event.noConfusion h
            · exact (ih cs w).2.1 j h
          · intro j hj
            rcases List.mem_cons.mp hj with h | h
            · exact Event.noConfusion h
            · exact (ih cs w).2.2 j h
        | false =>
          simp only [hwr, Bool.false_eq_true, if_false]
          refine ⟨?_, ?_, ?_⟩
          · simpa [joinIds] using (ih (closeFirst cs i) w).1
          · intro j hj
            rcases List.mem_cons.mp hj with h | h
            · exact Event.noConfusion h
            · exact (ih (closeFirst cs i) w).2.1 j h
          · intro j hj
            rcases List.mem_cons.mp hj with h | h
            · have hji : j = i := by injection h
              subst hji
              exact hcid ▸ List.mem_map_of_mem (fun c => c.id) hmem
            · have := (ih (closeFirst cs i) w).2.2 j h
              rwa [closeFirst_id_map] at this

lemma pollClients_ids (cs : List Client) (r : Nat → ReadOutcome) :
    ((pollClients cs r).1).map (fun c => c.id) = cs.map (fun c => c.id) := by
  induction cs with
  | nil => rfl
  | cons c cs ih =>
    simp only [pollClients]
    cases r c.id <;> simp [ih]

lemma pollClients_events (cs : List Client) (r : Nat → ReadOutcome) :
    joinIds (pollClients cs r).2 = [] ∧
    (∀ i, Event.Leave i ∈ (pollClients cs r).2 →
      i ∈ cs.map (fun c => c.id)) ∧
    (∀ i, Event.ClientError i ∈ (pollClients cs r).2 →
      i ∈ cs.map (fun c => c.id)) := by
  induction cs with
  | nil => simp [pollClients, joinIds]
  | cons c cs ih =>
    simp only [pollClients]
    cases r c.id with
    | wouldBlock =>
      refine ⟨ih.1, ?_, ?_⟩
      · intro j hj
        exact List.mem_cons_of_mem _ (ih.2.1 j hj)
      · intro j hj
        exact List.mem_cons_of_mem _ (ih.2.2 j hj)
    | eof =>
      refine ⟨by simpa [joinIds] using ih.1, ?_, ?_⟩
      · intro j hj
        rcases List.mem_cons.mp hj with h | h
        · have : j = c.id := by injection h
          subst this
          exact List.mem_cons_self _ _
        · exact List.mem_cons_of_mem _ (ih.2.1 j h)
      · intro j hj
        rcases List.mem_cons.mp hj with h | h
        · exact Event.noConfusion h
        · exact List.mem_cons_of_mem _ (ih.2.2 j h)
    | ok m =>
      refine ⟨by simpa [joinIds] using ih.1, ?_, ?_⟩
      · intro j hj
        rcases List.mem_cons.mp hj with h | h
        · exact Event.noConfusion h
        · exact List.mem_cons_of_mem _ (ih.2.1 j h)
      · intro j hj
        rcases List.mem_cons.mp hj with h | h
        · exact Event.noConfusion h
        · exact List.mem_cons_of_mem _ (ih.2.2 j h)
    | err =>
      refine ⟨by simpa [joinIds] using ih.1, ?_, ?_⟩
      · intro j hj
        rcases List.mem_cons.mp hj with h | h
        · exact Event.noConfusion h
        · exact List.mem_cons_of_mem _ (ih.2.1 j h)
      · intro j hj
        rcases List.mem_cons.mp hj with h | h
        · have : j = c.id := by injection h
          subst this
          exact List.mem_cons_self _ _
        · exact List.mem_cons_of_mem _ (ih.2.2 j h)

lemma pollListener_spec (inc : List Pending) :
    ∀ (last l2 : Nat) (ncs : List Client) (evs : List Event),
    pollListener last inc = some (l2, ncs, evs) →
    last ≤ l2 ∧
    (∀ i ∈ joinIds evs, last < i ∧ i ≤ l2) ∧
    (joinIds evs).Pairwise (· < ·) ∧
    (∀ c ∈ ncs, last < c.id ∧ c.id ≤ l2) ∧
    (∀ i, Event.Leave i ∉ evs) ∧
    (∀ i, Event.ClientError i ∉ evs) := by
  induction inc with
  | nil =>
    intro last l2 ncs evs h
    simp only [pollListener, Option.some.injEq, Prod.mk.injEq] at h
    obtain ⟨rfl, rfl, rfl⟩ := h
    simp [joinIds]
  | cons p rest ih =>
    intro last l2 ncs evs h
    cases p with
    | listenerErr =>
      simp only [pollListener, Option.some.injEq, Prod.mk.injEq] at h
      obtain ⟨rfl, rfl, rfl⟩ := h
      refine ⟨le_refl _, by simp [joinIds], by simp [joinIds], by simp, ?_, ?_⟩
      · intro i hi
        simp at hi
      · intro i hi
        simp at hi
    | sockErr =>
      simp only [pollListener] at h
      obtain ⟨r1, hr1, hf⟩ := Option.map_eq_some'.mp h
      obtain ⟨l1, ncs1, evs1⟩ := r1
      simp only [Prod.mk.injEq] at hf
      obtain ⟨rfl, rfl, rfl⟩ := hf
      obtain ⟨h1, h2, h3, h4, h5, h6⟩ := ih _ _ _ _ hr1
      refine ⟨h1, by simpa [joinIds] using h2, by simpa [joinIds] using h3,
        h4, ?_, ?_⟩
      · intro i hi
        rcases List.mem_cons.mp hi with hh | hh
        · exact Event.noConfusion hh
        · exact h5 i hh
      · intro i hi
        rcases List.mem_cons.mp hi with hh | hh
        · exact Event.noConfusion hh
        · exact h6 i hh
    | codecErr =>
      simp only [pollListener] at h
      cases hn : nextId last with
      | none => rw [hn] at h; exact absurd h (by simp)
      | some l =>
        rw [hn] at h
        have hl : l = last + 1 := nextId_eq_some hn
        obtain ⟨r1, hr1, hf⟩ := Option.map_eq_some'.mp h
        obtain ⟨l1, ncs1, evs1⟩ := r1
        simp only [Prod.mk.injEq] at hf
        obtain ⟨rfl, rfl, rfl⟩ := hf
        obtain ⟨h1, h2, h3, h4, h5, h6⟩ := ih _ _ _ _ hr1
        refine ⟨by omega, ?_, by simpa [joinIds] using h3, ?_, ?_, ?_⟩
        · intro i hi
          simp only [joinIds, List.filterMap_cons] at hi
          have := h2 i (by simpa [joinIds] using hi)
          omega
        · intro c hc
          have := h4 c hc
          omega
        · intro i hi
          rcases List.mem_cons.mp hi with hh | hh
          · exact Event.noConfusion hh
          · exact h5 i hh
        · intro i hi
          rcases List.mem_cons.mp hi with hh | hh
          · exact Event.noConfusion hh
          · exact h6 i hh
    | good =>
      simp only [pollListener] at h
      cases hn : nextId last with
      | none => rw [hn] at h; exact absurd h (by simp)
      | some l =>
        rw [hn] at h
        have hl : l = last + 1 := nextId_eq_some hn
        obtain ⟨r1, hr1, hf⟩ := Option.map_eq_some'.mp h
        obtain ⟨l1, ncs1, evs1⟩ := r1
        simp only [Prod.mk.injEq] at hf
        obtain ⟨rfl, rfl, rfl⟩ := hf
        obtain ⟨h1, h2, h3, h4, h5, h6⟩ := ih _ _ _ _ hr1
        have hjoin : joinIds (Event.Join l :: evs1) = l :: joinIds evs1 := by
          simp [joinIds]
        refine ⟨by omega, ?_, ?_, ?_, ?_, ?_⟩
        · intro i hi
          rw [hjoin] at hi
          rcases List.mem_cons.mp hi with rfl | hh
          · omega
          · have := h2 i hh
            omega
        · rw [hjoin]
          refine List.pairwise_cons.mpr ⟨?_, h3⟩
          intro j hj
          have := h2 j hj
          omega
        · intro c hc
          rcases List.mem_cons.mp hc with rfl | hh
          · simp
            omega
          · have := h4 c hh
            omega
        · intro i hi
          rcases List.mem_cons.mp hi with hh | hh
          · exact Event.noConfusion hh
          · exact h5 i hh
        · intro i hi
          rcases List.mem_cons.mp hi with hh | hh
          · exact Event.noConfusion hh
          · exact h6 i hh

lemma joinIds_append (a b : List Event) :
    joinIds (a ++ b) = joinIds a ++ joinIds b := by
  simp [joinIds]

lemma poll_spec (s : Server) (r : Nat → ReadOutcome)
    (w : Nat → List Nat → Bool) (inc : List Pending) (s2 : Server)
    (evs : List Event) (hev : s.events = [])
    (h : s.poll r w inc = some (s2, evs)) :
    s.last_id ≤ s2.last_id ∧
    (∀ i ∈ joinIds evs, s.last_id < i ∧ i ≤ s2.last_id) ∧
    (joinIds evs).Pairwise (· < ·) ∧
    s2.events = [] ∧ s2.message_queue = [] := by
  unfold Server.poll at h
  cases hpl : pollListener s.last_id inc with
  | none => rw [hpl] at h; exact absurd h (by simp)
  | some r1 =>
    rw [hpl] at h
    obtain ⟨l2, ncs, e3⟩ := r1
    simp only [Option.some.injEq, Prod.mk.injEq] at h
    obtain ⟨hs2, hevs⟩ := h
    obtain ⟨g1, g2, g3, g4, g5, g6⟩ :=
      pollListener_spec inc s.last_id l2 ncs e3 hpl
    have hj : joinIds evs = joinIds e3 := by
      rw [← hevs, hev, List.nil_append, joinIds_append, joinIds_append,
        (sendMessages_events _ _ _).1, (pollClients_events _ _).1]
      simp
    subst hs2
    refine ⟨g1, ?_, ?_, rfl, rfl⟩
    · intro i hi
      rw [hj] at hi
      exact g2 i hi
    · rw [hj]
      exact g3

lemma runOps_spec (ops : List Op) :
    ∀ (s s2 : Server) (evs : List Event), s.events = [] →
    runOps s ops = some (s2, evs) →
    s.last_id ≤ s2.last_id ∧
    (∀ i ∈ joinIds evs, s.last_id < i ∧ i ≤ s2.last_id) ∧
    (joinIds evs).Pairwise (· < ·) ∧ s2.events = [] := by
  induction ops with
  | nil =>
    intro s s2 evs hev h
    simp only [runOps, Option.some.injEq, Prod.mk.injEq] at h
    obtain ⟨rfl, rfl⟩ := h
    simp [joinIds, hev]
  | cons op rest ih =>
    intro s s2 evs hev h
    cases op with
    | poll r w inc =>
      simp only [runOps] at h
      cases hp : s.poll r w inc with
      | none => rw [hp] at h; exact absurd h (by simp)
      | some p =>
        rw [hp] at h
        obtain ⟨s1, e1⟩ := p
        obtain ⟨q, hq, hfq⟩ := Option.map_eq_some'.mp h
        obtain ⟨s3, e2⟩ := q
        simp only [Prod.mk.injEq] at hfq
        obtain ⟨rfl, rfl⟩ := hfq
        obtain ⟨p1, p2, p3, p4, _⟩ := poll_spec s r w inc s1 e1 hev hp
        obtain ⟨q1, q2, q3, q4⟩ := ih s1 s3 e2 p4 hq
        refine ⟨by omega, ?_, ?_, q4⟩
        · intro i hi
          rw [joinIds_append] at hi
          rcases List.mem_append.mp hi with hh | hh
          · have := p2 i hh
            omega
          · have := q2 i hh
            omega
        · rw [joinIds_append]
          refine List.pairwise_append.mpr ⟨p3, q3, ?_⟩
          intro a ha b hb
          have := p2 a ha
          have := q2 b hb
          omega
    | enqueue m =>
      simp only [runOps] at h
      exact ih (s.enqueue m) s2 evs (by simpa [Server.enqueue] using hev) h
    | kick i =>
      simp only [runOps] at h
      have hk : ((s.kick i).1).events = s.events ∧
          ((s.kick i).1).last_id = s.last_id := by
        unfold Server.kick
        split <;> simp
      have h2 := ih (s.kick i).1 s2 evs (hk.1.trans hev) h
      rw [hk.2] at h2
      exact h2

lemma kick_found (s : Server) (i : Nat) (h : ∃ c ∈ s.codecs, c.id = i) :
    s.kick i = ({ s with codecs := closeFirst s.codecs i }, .ok) := by
  unfold Server.kick
  rw [if_pos]
  obtain ⟨c, hc, hid⟩ := h
  exact List.any_eq_true.mpr ⟨c, hc, by simp [hid]⟩

lemma kick_not_found (s : Server) (i : Nat) (h : ∀ c ∈ s.codecs, c.id ≠ i) :
    s.kick i = (s, .idNotFound) := by
  unfold Server.kick
  rw [if_neg]
  intro hc
  obtain ⟨c, hcm, hce⟩ := List.any_eq_true.mp hc
  exact h c hcm (by simpa using hce)

lemma closeFirst_closes (cs : List Client) (i : Nat)
    (h : ∃ c ∈ cs, c.id = i) :
    ∃ c ∈ closeFirst cs i, c.id = i ∧ c.isOpen = false := by
  induction cs with
  | nil => simp at h
  | cons a cs ih =>
    unfold closeFirst
    by_cases ha : a.id = i
    · rw [if_pos ha]
      exact ⟨{ a with isOpen := false }, List.mem_cons_self _ _, ha, rfl⟩
    · rw [if_neg ha]
      obtain ⟨c, hc, hid⟩ := h
      rcases List.mem_cons.mp hc with rfl | hmem
      · exact absurd hid ha
      · obtain ⟨c2, hc2, h2⟩ := ih ⟨c, hmem, hid⟩
        exact ⟨c2, List.mem_cons_of_mem _ hc2, h2⟩

lemma closed_id_filter (cs : List Client) (i : Nat)
    (hnd : (cs.map (fun c => c.id)).Nodup) :
    ∀ c ∈ (closeFirst cs i).filter (fun c => c.isOpen), c.id ≠ i := by
  induction cs with
  | nil => intro c hc; simp [closeFirst] at hc
  | cons a cs ih =>
    simp only [List.map_cons, List.nodup_cons] at hnd
    obtain ⟨hnin, hnd2⟩ := hnd
    intro c hc
    unfold closeFirst at hc
    by_cases ha : a.id = i
    · rw [if_pos ha] at hc
      rw [List.filter_cons] at hc
      simp only [show ({ a with isOpen := false } : Client).isOpen = false
        from rfl, Bool.false_eq_true, if_false] at hc
      have hcin : c ∈ cs := List.mem_of_mem_filter hc
      intro hci
      apply hnin
      rw [ha, ← hci]
      exact List.mem_map_of_mem (fun c => c.id) hcin
    · rw [if_neg ha] at hc
      rw [List.filter_cons] at hc
      by_cases hao : a.isOpen = true
      · rw [if_pos hao] at hc
        rcases List.mem_cons.mp hc with rfl | hmem
        · exact ha
        · exact ih hnd2 c hmem
      · rw [if_neg hao] at hc
        exact ih hnd2 c hc

lemma sendMessages_append (q1 : List (Nat × List Nat)) :
    ∀ (cs : List Client) (q2 : List (Nat × List Nat))
      (w : Nat → List Nat → Bool),
    sendMessages cs (q1 ++ q2) w =
      ((sendMessages (sendMessages cs q1 w).1 q2 w).1,
       (sendMessages cs q1 w).2 ++
         (sendMessages (sendMessages cs q1 w).1 q2 w).2) := by
  induction q1 with
  | nil => intro cs q2 w; simp [sendMessages]
  | cons e rest ih =>
    intro cs q2 w
    obtain ⟨i, m⟩ := e
    simp only [List.cons_append, sendMessages]
    cases hf : cs.find? (fun c => c.id == i) with
    | none => simp only [hf]; exact ih cs q2 w
    | some c =>
      simp only [hf]
      cases hio : c.isOpen with
      | false => simp only [hio, Bool.not_false, if_true]; exact ih cs q2 w
      | true =>
        simp only [hio, Bool.not_true, Bool.false_eq_true, if_false]
        cases hwr : w i m with
        | true =>
          simp only [hwr, if_true, List.append_eq]
          rw [ih cs q2 w]
          simp
        | false =>
          simp only [hwr, Bool.false_eq_true, if_false, List.append_eq]
          rw [ih (closeFirst cs i) q2 w]
          simp

lemma sendMessages_drop_dead (cs : List Client) (i : Nat) (m : List Nat)
    (rest : List (Nat × List Nat)) (w : Nat → List Nat → Bool)
    (h : ∀ c ∈ cs, c.id = i → c.isOpen = false) :
    sendMessages cs ((i, m) :: rest) w = sendMessages cs rest w := by
  simp only [sendMessages]
  cases hf : cs.find? (fun c => c.id == i) with
  | none => simp only [hf]
  | some c =>
    have hmem := List.mem_of_find?_eq_some hf
    have hcid : c.id = i := by simpa using List.find?_some hf
    have hcl := h c hmem hcid
    simp only [hf, hcl, Bool.not_false, if_true]

lemma poll_queue_empty (s : Server) (r : Nat → ReadOutcome)
    (w : Nat → List Nat → Bool) (inc : List Pending) (s2 : Server)
    (evs : List Event) (h : s.poll r w inc = some (s2, evs)) :
    s2.message_queue = [] := by
  unfold Server.poll at h
  cases hpl : pollListener s.last_id inc with
  | none => rw [hpl] at h; exact absurd h (by simp)
  | some r1 =>
    rw [hpl] at h
    simp only [Option.some.injEq, Prod.mk.injEq] at h
    obtain ⟨hs2, _⟩ := h
    rw [← hs2]

/-- Claim C5: every poll drains the outbound queue exactly once, leaving it
empty (first conjunct); entries are processed in FIFO order, splitting
compositionally over queue concatenation (second conjunct); and an entry
whose id has no open live client in the collection at send time is dropped
silently, producing no event and no state change (third conjunct) — in poll
this collection is the pruned live set, so a codec closed before the poll,
or an id never issued, is covered. -/
theorem c5_queue_drain_fifo_silent_drop :
    (∀ (s : Server) (r : Nat → ReadOutcome) (w : Nat → List Nat → Bool)
        (inc : List Pending) (s2 : Server) (evs : List Event),
        s.poll r w inc = some (s2, evs) → s2.message_queue = []) ∧
    (∀ (cs : List Client) (q1 q2 : List (Nat × List Nat))
        (w : Nat → List Nat → Bool),
        sendMessages cs (q1 ++ q2) w =
          ((sendMessages (sendMessages cs q1 w).1 q2 w).1,
           (sendMessages cs q1 w).2 ++
             (sendMessages (sendMessages cs q1 w).1 q2 w).2)) ∧
    (∀ (cs : List Client) (i : Nat) (m : List Nat)
        (rest : List (Nat × List Nat)) (w : Nat → List Nat → Bool),
        (∀ c ∈ cs, c.id = i → c.isOpen = false) →
        sendMessages cs ((i, m) :: rest) w = sendMessages cs rest w) :=
  ⟨poll_queue_empty, fun cs q1 q2 w => sendMessages_append q1 cs q2 w,
   sendMessages_drop_dead⟩

/-- Witness for claim C5: polling a server with the queued message
(99, "h") for the never-issued id 99 drains the queue, produces no event,
and returns to the initial state; and a queue entry for a closed codec is
skipped with no event and no state change. -/
theorem c5_queue_drain_witness :
    initServer.message_queue = [] ∧
    sendMessages [⟨7, false⟩] [(7, [0x68])] writeAllOk =
      sendMessages [⟨7, false⟩] [] writeAllOk :=
  ⟨c5_queue_drain_fifo_silent_drop.1 (initServer.enqueue (99, [0x68]))
      readsNone writeAllOk [] initServer [] (by decide),
   c5_queue_drain_fifo_silent_drop.2.2 [⟨7, false⟩] 7 [0x68] [] writeAllOk
      (by decide)⟩

/-- Claim C6: across the lifetime of one Server instance driven by any
sequence of operations from its initial state, the ids of accepted clients
(the ids carried by Join events) are strictly increasing across the whole
event history, hence never reused after disconnects. -/
theorem c6_ids_strictly_increasing (ops : List Op) (s2 : Server)
    (evs : List Event) (h : runOps initServer ops = some (s2, evs)) :
    (joinIds evs).Pairwise (· < ·) :=
  (runOps_spec ops initServer s2 evs rfl h).2.2.1

/-- Witness for claim C6: accept two clients, kick the first, accept a
third; the issued ids 1, 2, 3 are strictly increasing. -/
theorem c6_ids_witness :
    (joinIds [Event.Join 1, Event.Join 2, Event.Join 3]).Pairwise (· < ·) :=
  c6_ids_strictly_increasing
    [Op.poll readsNone writeAllOk [.good, .good], Op.kick 1,
     Op.poll readsNone writeAllOk [.good]]
    { codecs := [⟨2, true⟩, ⟨3, true⟩], events := [], message_queue := [],
      last_id := 3 }
    [Event.Join 1, Event.Join 2, Event.Join 3] (by decide)

/-- Claim C8: kick(id) marks the codec of a present client closed and
returns Ok (first conjunct); on an absent id it returns the IdNotFound
error without touching the server (second conjunct); and a kicked client is
removed by the next poll before anything else, with no Leave and no
ClientError event ever emitted for its id in that poll (third conjunct,
under the server invariants that codec ids are distinct and bounded by
last_id). -/
theorem c8_kick_behavior :
    (∀ (s : Server) (i : Nat), (∃ c ∈ s.codecs, c.id = i) →
        (s.kick i).2 = .ok ∧
        ∃ c ∈ (s.kick i).1.codecs, c.id = i ∧ c.isOpen = false) ∧
    (∀ (s : Server) (i : Nat), (∀ c ∈ s.codecs, c.id ≠ i) →
        s.kick i = (s, .idNotFound)) ∧
    (∀ (s : Server) (i : Nat) (r : Nat → ReadOutcome)
        (w : Nat → List Nat → Bool) (inc : List Pending)
        (s2 : Server) (evs : List Event),
        s.events = [] →
        (s.codecs.map (fun c => c.id)).Nodup →
        (∀ c ∈ s.codecs, c.id ≤ s.last_id) →
        (∃ c ∈ s.codecs, c.id = i) →
        (s.kick i).1.poll r w inc = some (s2, evs) →
        (∀ c ∈ s2.codecs, c.id ≠ i) ∧
        Event.Leave i ∉ evs ∧ Event.ClientError i ∉ evs) := by
  refine ⟨?_, ?_, ?_⟩
  · intro s i h
    rw [kick_found s i h]
    exact ⟨rfl, closeFirst_closes s.codecs i h⟩
  · intro s i h
    exact kick_not_found s i h
  · intro s i r w inc s2 evs hev hnd hle hex hp
    rw [kick_found s i hex] at hp
    have hile : i ≤ s.last_id := by
      obtain ⟨c, hc, hid⟩ := hex
      exact hid ▸ hle c hc
    unfold Server.poll at hp
    cases hpl : pollListener s.last_id inc with
    | none => rw [hpl] at hp; exact absurd hp (by simp)
    | some r1 =>
      rw [hpl] at hp
      obtain ⟨l2, ncs, e3⟩ := r1
      simp only [Option.some.injEq, Prod.mk.injEq] at hp
      obtain ⟨hs2, hevs⟩ := hp
      obtain ⟨g1, g2, g3, g4, g5, g6⟩ :=
        pollListener_spec inc s.last_id l2 ncs e3 hpl
      have hnoid : ∀ c ∈ (closeFirst s.codecs i).filter (fun c => c.isOpen),
          c.id ≠ i := closed_id_filter s.codecs i hnd
      have hid0 : i ∉ ((closeFirst s.codecs i).filter
          (fun c => c.isOpen)).map (fun c => c.id) := by
        intro hmem
        obtain ⟨c, hc, hci⟩ := List.mem_map.mp hmem
        exact hnoid c hc hci
      have hids1 : ((sendMessages ((closeFirst s.codecs i).filter
          (fun c => c.isOpen)) s.message_queue w).1).map (fun c => c.id) =
          ((closeFirst s.codecs i).filter (fun c => c.isOpen)).map
            (fun c => c.id) := sendMessages_ids _ _ _
      have hids2 : ((pollClients ((sendMessages ((closeFirst s.codecs i).filter
          (fun c => c.isOpen)) s.message_queue w).1) r).1).map
          (fun c => c.id) =
          ((closeFirst s.codecs i).filter (fun c => c.isOpen)).map
            (fun c => c.id) := by
        rw [pollClients_ids, hids1]
      refine ⟨?_, ?_, ?_⟩
      · intro c hc
        rw [← hs2] at hc
        rcases List.mem_append.mp hc with hh | hh
        · intro hci
          have hmm := List.mem_map_of_mem (fun c => c.id) hh
          rw [hids2] at hmm
          exact hid0 (hci ▸ hmm)
        · have := g4 c hh
          omega
      · intro hmem
        rw [← hevs, hev, List.nil_append] at hmem
        rcases List.mem_append.mp hmem with hh | hh
        · rcases List.mem_append.mp hh with hhh | hhh
          · exact (sendMessages_events _ _ _).2.1 i hhh
          · have := (pollClients_events _ _).2.1 i hhh
            rw [hids1] at this
            exact hid0 this
        · exact g5 i hh
      · intro hmem
        rw [← hevs, hev, List.nil_append] at hmem
        rcases List.mem_append.mp hmem with hh | hh
        · rcases List.mem_append.mp hh with hhh | hhh
          · have := (sendMessages_events _ _ _).2.2 i hhh
            exact hid0 this
          · have := (pollClients_events _ _).2.2 i hhh
            rw [hids1] at this
            exact hid0 this
        · exact g6 i hh

/-- Witness for claim C8: kicking the one connected client (id 1) returns
Ok; kicking the absent id 2 returns IdNotFound; the poll after the kick
returns an empty batch, so no Leave event is emitted for id 1. -/
theorem c8_kick_witness :
    (serverOneClient.kick 1).2 = KickResult.ok ∧
    serverOneClient.kick 2 = (serverOneClient, .idNotFound) ∧
    Event.Leave 1 ∉ ([] : List Event) :=
  ⟨(c8_kick_behavior.1 serverOneClient 1 ⟨⟨1, true⟩, by decide, rfl⟩).1,
   c8_kick_behavior.2.1 serverOneClient 2 (by decide),
   (c8_kick_behavior.2.2 serverOneClient 1 readsNone writeAllOk []
      { codecs := [], events := [], message_queue := [], last_id := 1 } []
      rfl (by decide) (by decide) ⟨⟨1, true⟩, by decide, rfl⟩
      (by decide)).2.1⟩

/-- Claim C9, counterexample: with two pending connections and "hi" already
sent by the first client, the single poll returns exactly Join(1), Join(2):
accept runs after read within a cycle, so the batch does not contain the
Receive event the claim requires. -/
theorem c9_counterexample :
    initServer.poll readsC9 writeAllOk [.good, .good] =
      some (serverTwoClients, [.Join 1, .Join 2]) ∧
    Event.Receive 1 hiMsg ∉ [Event.Join 1, Event.Join 2] := by
  exact ⟨by decide, by decide⟩

/-- Claim C9 (amended): with two pending connections and "hi" already sent
by the first client, one poll reports Join(1) then Join(2), and the
following poll reports Receive(1, "hi"); the three events keep that
relative order across the two batches. -/
theorem c9_two_poll_scenario :
    initServer.poll readsC9 writeAllOk [.good, .good] =
      some (serverTwoClients, [.Join 1, .Join 2]) ∧
    serverTwoClients.poll readsC9 writeAllOk [] =
      some (serverTwoClients, [.Receive 1 hiMsg]) := by
  exact ⟨by decide, by decide⟩

end Mudtcp
